import Mathlib

/-!
# Verification of `format_no_std` (src/lib.rs)

Shallow embedding of the bounded writer `WriteTo` and the entry point `show`
from `src/lib.rs`, together with proofs of the specification claims.

Modelling conventions:
* A Rust byte buffer `&mut [u8]` is a `List Nat` of fixed length (the
  capacity); byte values are plain naturals (all operations here only move
  bytes around, no arithmetic overflows anywhere in the source).
* A Rust `&str` fragment is its underlying UTF-8 byte sequence, a `List Nat`
  satisfying `utf8Valid`.
* `core::str::from_utf8` is modelled by the executable validator `utf8Valid`
  (standard RFC 3629 UTF-8: rejects overlong forms, surrogates, and values
  above U+10FFFF, exactly as Rust does).
* `fmt::Arguments` / the external formatting engine is modelled as the list
  of events it feeds to the writer: fragments, possibly an engine-internal
  error (`FmtStep.err`).  `core::fmt::write` stops at the first error.
-/

/-- Is `b` a UTF-8 continuation byte (`0x80..=0xBF`)? -/
def cont (b : Nat) : Bool := decide (0x80 ≤ b) && decide (b ≤ 0xBF)

/-- Allowed second byte after a three-byte lead `a` (`0xE0..=0xEF`):
`0xE0` forbids overlong forms, `0xED` forbids surrogates. -/
def byte3ok (a b : Nat) : Bool :=
  if a = 0xE0 then decide (0xA0 ≤ b) && decide (b ≤ 0xBF)
  else if a = 0xED then decide (0x80 ≤ b) && decide (b ≤ 0x9F)
  else cont b

/-- Allowed second byte after a four-byte lead `a` (`0xF0..=0xF4`):
`0xF0` forbids overlong forms, `0xF4` caps the range at U+10FFFF. -/
def byte4ok (a b : Nat) : Bool :=
  if a = 0xF0 then decide (0x90 ≤ b) && decide (b ≤ 0xBF)
  else if a = 0xF4 then decide (0x80 ≤ b) && decide (b ≤ 0x8F)
  else cont b

/-- RFC 3629 UTF-8 validity of a byte sequence, as checked by Rust's
`core::str::from_utf8`. -/
def utf8Valid : List Nat → Bool
  | [] => true
  | a :: l =>
    if a ≤ 0x7F then utf8Valid l
    else if 0xC2 ≤ a ∧ a ≤ 0xDF then
      match l with
      | b :: l2 => cont b && utf8Valid l2
      | [] => false
    else if 0xE0 ≤ a ∧ a ≤ 0xEF then
      match l with
      | b :: c :: l3 => byte3ok a b && cont c && utf8Valid l3
      | _ => false
    else if 0xF0 ≤ a ∧ a ≤ 0xF4 then
      match l with
      | b :: c :: d :: l4 => byte4ok a b && cont c && cont d && utf8Valid l4
      | _ => false
    else false

/-- The writer `WriteTo<'a>`: a mutably borrowed byte buffer `buf` and the
count `len` of bytes written so far (`written_len`), which may exceed the
buffer length after an overflow. -/
structure WriteTo where
  buf : List Nat
  len : Nat
deriving DecidableEq, Repr

/-- `WriteTo::new`: fresh writer over `buf`, `len = 0`. -/
def WriteTo.new (buf : List Nat) : WriteTo := ⟨buf, 0⟩

/-- `WriteTo::write_str` from `src/lib.rs`.  Returns the updated writer and
the result (`true` = `Ok(())`, `false` = `Err(fmt::Error)`).

Mirrors the source line by line: if `self.len > self.buf.len()` return
`Err` immediately; otherwise `num = min(s.len(), rem.len())` bytes of `s`
are copied into the buffer at offset `len` (`rem[..num].copy_from_slice`),
`len += s.len()` (the full length), and the result is `Err` iff
`num < s.len()`. -/
def WriteTo.writeStr (w : WriteTo) (s : List Nat) : WriteTo × Bool :=
  if w.buf.length < w.len then (w, false)
  else
    let num := min s.length (w.buf.length - w.len)
    let buf2 := w.buf.take w.len ++ s.take num ++ w.buf.drop (w.len + num)
    let w2 : WriteTo := ⟨buf2, w.len + s.length⟩
    if num < s.length then (w2, false) else (w2, true)

/-- `WriteTo::as_str`: the written prefix of the buffer reinterpreted as a
string (`from_utf8(&self.buf[..self.len]).ok()`) when `len <= buf.len()`,
otherwise `None`. -/
def WriteTo.asStr (w : WriteTo) : Option (List Nat) :=
  if w.len ≤ w.buf.length then
    if utf8Valid (w.buf.take w.len) then some (w.buf.take w.len) else none
  else none

/-- `WriteTo::len`: `Some(self.len)` when `len <= buf.len()`, else `None`. -/
def WriteTo.lenq (w : WriteTo) : Option Nat :=
  if w.len ≤ w.buf.length then some w.len else none

/-- `WriteTo::is_empty`: `Some(self.len == 0)` when `len <= buf.len()`,
else `None`. -/
def WriteTo.isEmpty (w : WriteTo) : Option Bool :=
  if w.len ≤ w.buf.length then some (decide (w.len = 0)) else none

/-- One event emitted by the external formatting engine while it renders a
`fmt::Arguments` job: either a rendered fragment handed to `write_str`, or
an engine-internal rendering error. -/
inductive FmtStep where
  | frag : List Nat → FmtStep
  | err : FmtStep
deriving DecidableEq, Repr

/-- `core::fmt::write(&mut w, arg)`: feeds the job's events to the writer in
order, stopping at the first error (each internal write is `?`-propagated).
Returns the final writer and `true` iff no error occurred. -/
def fmtWrite : WriteTo → List FmtStep → WriteTo × Bool
  | w, [] => (w, true)
  | w, FmtStep.err :: _ => (w, false)
  | w, FmtStep.frag s :: rest =>
    let p := w.writeStr s
    if p.2 then fmtWrite p.1 rest else (p.1, false)

/-- The entry point `show(buf, arg)`: runs `fmt::write` over a fresh writer,
propagates its error, then `w.as_str().ok_or(fmt::Error)`.  `fmt::Error` is
a unit struct, modelled by `Unit`. -/
def showf (buf : List Nat) (arg : List FmtStep) : Except Unit (List Nat) :=
  let p := fmtWrite (WriteTo.new buf) arg
  if p.2 then
    match p.1.asStr with
    | some s => Except.ok s
    | none => Except.error ()
  else Except.error ()

/-- Iterated `write_str` over a list of fragments (ignoring results), used to
state properties over arbitrary write sequences. -/
def writeAll : WriteTo → List (List Nat) → WriteTo
  | w, [] => w
  | w, s :: rest => writeAll (w.writeStr s).1 rest

/-- UTF-8 bytes of an ASCII string literal (all fragments in the concrete
test scenarios are ASCII, where the code point equals the byte). -/
def strBytes (s : String) : List Nat := s.toList.map Char.toNat

/-- The 64-byte buffer of the concrete test scenario (`test_len`). -/
def bufC8 : List Nat := List.replicate 64 0

/-- The fragments emitted by the engine when rendering
`format_args!("Test String {}: {}", "foo", 42)`: literal piece, first
argument, literal piece, second argument. -/
def fragsC8 : List (List Nat) :=
  [strBytes "Test String ", strBytes "foo", strBytes ": ", strBytes "42"]

/-! ## Helper lemmas about `write_str` -/

/-- Early return: a writer already overflowed is left untouched and the write
fails. -/
theorem writeStr_of_overflow (w : WriteTo) (s : List Nat)
    (h : w.buf.length < w.len) : w.writeStr s = (w, false) := by
  simp [WriteTo.writeStr, h]

/-- When the fragment fits, the write succeeds and appends the whole fragment
at offset `len`. -/
theorem writeStr_fits (w : WriteTo) (s : List Nat)
    (h : w.len + s.length ≤ w.buf.length) :
    w.writeStr s =
      (⟨w.buf.take w.len ++ s ++ w.buf.drop (w.len + s.length),
        w.len + s.length⟩, true) := by
  have h0 : ¬ w.buf.length < w.len := by omega
  have hnum : min s.length (w.buf.length - w.len) = s.length := by omega
  simp [WriteTo.writeStr, h0, hnum, List.take_length]

/-- When the fragment does not fit (but the writer was not yet overflowed),
only the prefix filling the remaining space is copied, `len` still advances
by the full fragment length, and the write fails. -/
theorem writeStr_overfill (w : WriteTo) (s : List Nat)
    (h0 : w.len ≤ w.buf.length) (h1 : w.buf.length < w.len + s.length) :
    w.writeStr s =
      (⟨w.buf.take w.len ++ s.take (w.buf.length - w.len),
        w.len + s.length⟩, false) := by
  have hg : ¬ w.buf.length < w.len := by omega
  have hnum : min s.length (w.buf.length - w.len) = w.buf.length - w.len := by
    omega
  have hlt : w.buf.length - w.len < s.length := by omega
  have hdrop : w.buf.drop (w.len + (w.buf.length - w.len)) = [] := by
    apply List.drop_eq_nil_of_le; omega
  simp [WriteTo.writeStr, hg, hnum, hlt, hdrop]

/-- `write_str` never changes the size of the underlying buffer (the model
counterpart of staying in bounds). -/
theorem writeStr_buf_length (w : WriteTo) (s : List Nat) :
    (w.writeStr s).1.buf.length = w.buf.length := by
  by_cases hg : w.buf.length < w.len
  · rw [writeStr_of_overflow w s hg]
  · have h0 : w.len ≤ w.buf.length := by omega
    by_cases hfit : w.len + s.length ≤ w.buf.length
    · rw [writeStr_fits w s hfit]
      simp [List.length_take, List.length_drop]
      omega
    · rw [writeStr_overfill w s h0 (by omega)]
      simp [List.length_take]
      omega

/-- `written_len` never decreases across a single write. -/
theorem writeStr_len_mono (w : WriteTo) (s : List Nat) :
    w.len ≤ (w.writeStr s).1.len := by
  by_cases hg : w.buf.length < w.len
  · rw [writeStr_of_overflow w s hg]
  · have h0 : w.len ≤ w.buf.length := by omega
    by_cases hfit : w.len + s.length ≤ w.buf.length
    · rw [writeStr_fits w s hfit]; exact Nat.le_add_right _ _
    · rw [writeStr_overfill w s h0 (by omega)]; exact Nat.le_add_right _ _

/-- Unless the early-return guard fires, `written_len` advances by the full
fragment length. -/
theorem writeStr_len_of_le (w : WriteTo) (s : List Nat)
    (h : w.len ≤ w.buf.length) :
    (w.writeStr s).1.len = w.len + s.length := by
  by_cases hfit : w.len + s.length ≤ w.buf.length
  · rw [writeStr_fits w s hfit]
  · rw [writeStr_overfill w s h (by omega)]

/-- The write reports success exactly when the whole fragment fit. -/
theorem writeStr_ok_iff (w : WriteTo) (s : List Nat) :
    (w.writeStr s).2 = true ↔ w.len + s.length ≤ w.buf.length := by
  by_cases hg : w.buf.length < w.len
  · rw [writeStr_of_overflow w s hg]
    simp
    omega
  · have h0 : w.len ≤ w.buf.length := by omega
    by_cases hfit : w.len + s.length ≤ w.buf.length
    · rw [writeStr_fits w s hfit]; simpa using hfit
    · rw [writeStr_overfill w s h0 (by omega)]
      simp
      omega

/-- After a fitting write the written prefix is the old prefix followed by
the fragment. -/
theorem take_len_writeStr (w : WriteTo) (s : List Nat)
    (h : w.len + s.length ≤ w.buf.length) :
    (w.writeStr s).1.buf.take (w.writeStr s).1.len =
      w.buf.take w.len ++ s := by
  rw [writeStr_fits w s h]
  have hA : (w.buf.take w.len ++ s).length = w.len + s.length := by
    simp [List.length_take]
    omega
  dsimp only
  exact List.take_left' hA

/-! ## Helper lemmas about `writeAll` -/

/-- An overflowed writer is a fixed point of any write sequence. -/
theorem writeAll_of_overflow (frags : List (List Nat)) :
    ∀ w : WriteTo, w.buf.length < w.len → writeAll w frags = w := by
  induction frags with
  | nil => intro w _; rfl
  | cons s rest ih =>
    intro w h
    simp only [writeAll, writeStr_of_overflow w s h]
    exact ih w h

/-- `written_len` never decreases across a write sequence. -/
theorem writeAll_len_mono (frags : List (List Nat)) :
    ∀ w : WriteTo, w.len ≤ (writeAll w frags).len := by
  induction frags with
  | nil => intro w; exact Nat.le_refl _
  | cons s rest ih =>
    intro w
    exact Nat.le_trans (writeStr_len_mono w s) (ih (w.writeStr s).1)

/-- A write sequence never changes the size of the underlying buffer. -/
theorem writeAll_buf_length (frags : List (List Nat)) :
    ∀ w : WriteTo, (writeAll w frags).buf.length = w.buf.length := by
  induction frags with
  | nil => intro w; rfl
  | cons s rest ih =>
    intro w
    simp only [writeAll]
    rw [ih (w.writeStr s).1, writeStr_buf_length]

/-- Main invariant: while the cumulative fragment length fits, `written_len`
is the sum of the fragment lengths and the written prefix of the buffer is
the old prefix followed by the concatenation of the fragments. -/
theorem writeAll_spec (frags : List (List Nat)) :
    ∀ w : WriteTo, w.len + (frags.map List.length).sum ≤ w.buf.length →
      (writeAll w frags).len = w.len + (frags.map List.length).sum ∧
      (writeAll w frags).buf.take (writeAll w frags).len =
        w.buf.take w.len ++ frags.flatten := by
  induction frags with
  | nil => intro w _; simp [writeAll]
  | cons s rest ih =>
    intro w h
    simp only [List.map_cons, List.sum_cons] at h
    have hfit : w.len + s.length ≤ w.buf.length := by omega
    have hbl : (w.writeStr s).1.buf.length = w.buf.length :=
      writeStr_buf_length w s
    have hlen : (w.writeStr s).1.len = w.len + s.length := by
      rw [writeStr_fits w s hfit]
    have hpre : (w.writeStr s).1.buf.take (w.writeStr s).1.len =
        w.buf.take w.len ++ s := take_len_writeStr w s hfit
    have h2 : (w.writeStr s).1.len + (rest.map List.length).sum ≤
        (w.writeStr s).1.buf.length := by rw [hlen, hbl]; omega
    obtain ⟨e2, e3⟩ := ih (w.writeStr s).1 h2
    simp only [writeAll]
    constructor
    · rw [e2, hlen, List.map_cons, List.sum_cons]; omega
    · rw [e3, hpre, List.flatten_cons, List.append_assoc]

/-! ## UTF-8 validity is closed under concatenation -/

/-- Unfolding lemma for `utf8Valid` on a nonempty list. -/
theorem utf8Valid_cons (a : Nat) (l : List Nat) :
    utf8Valid (a :: l) =
      (if a ≤ 0x7F then utf8Valid l
      else if 0xC2 ≤ a ∧ a ≤ 0xDF then
        match l with
        | b :: l2 => cont b && utf8Valid l2
        | [] => false
      else if 0xE0 ≤ a ∧ a ≤ 0xEF then
        match l with
        | b :: c :: l3 => byte3ok a b && cont c && utf8Valid l3
        | _ => false
      else if 0xF0 ≤ a ∧ a ≤ 0xF4 then
        match l with
        | b :: c :: d :: l4 => byte4ok a b && cont c && cont d && utf8Valid l4
        | _ => false
      else false) := by
  cases l with
  | nil => rfl
  | cons b l2 =>
    cases l2 with
    | nil => rfl
    | cons c l3 =>
      cases l3 with
      | nil => rfl
      | cons d l4 => rfl

/-- Concatenation bounded by fuel `n ≥ xs.length`: auxiliary strong
induction for `utf8Valid_append`. -/
theorem utf8Valid_append_aux (ys : List Nat) (hy : utf8Valid ys = true) :
    ∀ n xs, xs.length ≤ n → utf8Valid xs = true →
      utf8Valid (xs ++ ys) = true := by
  intro n
  induction n with
  | zero =>
    intro xs hn _
    have : xs = [] := List.eq_nil_of_length_eq_zero (by omega)
    simpa [this] using hy
  | succ n ih =>
    intro xs hn hx
    cases xs with
    | nil => simpa using hy
    | cons a l =>
      rw [List.cons_append]
      rw [utf8Valid_cons] at hx ⊢
      simp only [List.length_cons] at hn
      by_cases h1 : a ≤ 0x7F
      · rw [if_pos h1] at hx ⊢
        exact ih l (by omega) hx
      · rw [if_neg h1] at hx ⊢
        by_cases h2 : 0xC2 ≤ a ∧ a ≤ 0xDF
        · rw [if_pos h2] at hx ⊢
          cases l with
          | nil => exact absurd hx Bool.false_ne_true
          | cons b l2 =>
            replace hx : (cont b && utf8Valid l2) = true := hx
            show (cont b && utf8Valid (l2 ++ ys)) = true
            simp only [Bool.and_eq_true] at hx ⊢
            simp only [List.length_cons] at hn
            exact ⟨hx.1, ih l2 (by omega) hx.2⟩
        · rw [if_neg h2] at hx ⊢
          by_cases h3 : 0xE0 ≤ a ∧ a ≤ 0xEF
          · rw [if_pos h3] at hx ⊢
            cases l with
            | nil => exact absurd hx Bool.false_ne_true
            | cons b l2 =>
              cases l2 with
              | nil => exact absurd hx Bool.false_ne_true
              | cons c l3 =>
                replace hx : (byte3ok a b && cont c && utf8Valid l3) = true :=
                  hx
                show (byte3ok a b && cont c && utf8Valid (l3 ++ ys)) = true
                simp only [Bool.and_eq_true] at hx ⊢
                simp only [List.length_cons] at hn
                exact ⟨hx.1, ih l3 (by omega) hx.2⟩
          · rw [if_neg h3] at hx ⊢
            by_cases h4 : 0xF0 ≤ a ∧ a ≤ 0xF4
            · rw [if_pos h4] at hx ⊢
              cases l with
              | nil => exact absurd hx Bool.false_ne_true
              | cons b l2 =>
                cases l2 with
                | nil => exact absurd hx Bool.false_ne_true
                | cons c l3 =>
                  cases l3 with
                  | nil => exact absurd hx Bool.false_ne_true
                  | cons d l4 =>
                    replace hx :
                        (byte4ok a b && cont c && cont d && utf8Valid l4) =
                          true := hx
                    show (byte4ok a b && cont c && cont d &&
                        utf8Valid (l4 ++ ys)) = true
                    simp only [Bool.and_eq_true] at hx ⊢
                    simp only [List.length_cons] at hn
                    exact ⟨hx.1, ih l4 (by omega) hx.2⟩
            · rw [if_neg h4] at hx
              exact absurd hx Bool.false_ne_true

/-- Concatenating two valid UTF-8 sequences yields a valid sequence. -/
theorem utf8Valid_append (xs ys : List Nat) (hx : utf8Valid xs = true)
    (hy : utf8Valid ys = true) : utf8Valid (xs ++ ys) = true :=
  utf8Valid_append_aux ys hy xs.length xs (Nat.le_refl _) hx

/-- The concatenation of a list of valid UTF-8 fragments is valid. -/
theorem utf8Valid_flatten (frags : List (List Nat))
    (h : ∀ s ∈ frags, utf8Valid s = true) :
    utf8Valid frags.flatten = true := by
  induction frags with
  | nil => rfl
  | cons s rest ih =>
    rw [List.flatten_cons]
    exact utf8Valid_append s rest.flatten (h s (List.mem_cons_self s rest))
      (ih fun t ht => h t (List.mem_cons_of_mem s ht))

example : utf8Valid (strBytes "Test String foo: 42") = true := by decide
example : (strBytes "Test String foo: 42").length = 19 := by decide
example : (WriteTo.writeStr ⟨[0, 0], 0⟩ [7]) = (⟨[7, 0], 1⟩, true) := by decide
example : (WriteTo.writeStr ⟨[0], 2⟩ [97]) = (⟨[0], 2⟩, false) := by decide
example : (WriteTo.writeStr ⟨[0, 0], 1⟩ [7, 8]) = (⟨[0, 7], 3⟩, false) := by decide
example : utf8Valid [0xC0, 0x80] = false := by decide
example : utf8Valid [0xED, 0xA0, 0x80] = false := by decide
example : utf8Valid [0xE2, 0x82, 0xAC] = true := by decide

/-- Characterization of a successful `as_str`. -/
theorem asStr_eq_some (w : WriteTo) (s : List Nat) (h : w.asStr = some s) :
    s = w.buf.take w.len ∧ w.len ≤ w.buf.length ∧ utf8Valid s = true := by
  unfold WriteTo.asStr at h
  by_cases h1 : w.len ≤ w.buf.length
  · rw [if_pos h1] at h
    by_cases h2 : utf8Valid (w.buf.take w.len) = true
    · rw [if_pos h2] at h
      obtain rfl : w.buf.take w.len = s := Option.some.inj h
      exact ⟨rfl, h1, h2⟩
    · rw [if_neg h2] at h
      exact absurd h (Option.noConfusion)
  · rw [if_neg h1] at h
    exact absurd h (Option.noConfusion)

/-! ## The claims -/

/-- C1: for every writer that is not already overflowed
(`written_len <= capacity`) and every fragment, `write_str` copies exactly
`min(len(fragment), capacity - written_len)` bytes of the fragment into the
buffer at offset `written_len`, sets `written_len` to
`written_len + len(fragment)` (the full, unclamped length), and returns
success iff the pre-write `written_len + len(fragment) <= capacity`,
performing the copy and length update also on failure. -/
theorem writeStr_copy_advance_ok_iff (w : WriteTo) (s : List Nat)
    (h : w.len ≤ w.buf.length) :
    (w.writeStr s).1.len = w.len + s.length ∧
    (w.writeStr s).1.buf =
      w.buf.take w.len ++ s.take (min s.length (w.buf.length - w.len)) ++
        w.buf.drop (w.len + min s.length (w.buf.length - w.len)) ∧
    ((w.writeStr s).2 = true ↔ w.len + s.length ≤ w.buf.length) := by
  have hg : ¬ w.buf.length < w.len := by omega
  refine ⟨writeStr_len_of_le w s h, ?_, writeStr_ok_iff w s⟩
  simp only [WriteTo.writeStr, hg, if_false]
  split <;> rfl

/-- Witness for C1 at the writer `⟨[0, 0, 0], 1⟩` and fragment `[10, 11]`. -/
theorem writeStr_copy_advance_ok_iff_witness :
    (1 : Nat) ≤ 3 ∧
    (((⟨[0, 0, 0], 1⟩ : WriteTo).writeStr [10, 11]).1.len = 1 + 2 ∧
      ((⟨[0, 0, 0], 1⟩ : WriteTo).writeStr [10, 11]).1.buf =
        [0, 0, 0].take 1 ++ [10, 11].take (min 2 (3 - 1)) ++
          [0, 0, 0].drop (1 + min 2 (3 - 1)) ∧
      (((⟨[0, 0, 0], 1⟩ : WriteTo).writeStr [10, 11]).2 = true ↔
        1 + 2 ≤ 3)) :=
  ⟨by decide, writeStr_copy_advance_ok_iff ⟨[0, 0, 0], 1⟩ [10, 11] (by decide)⟩

/-- C2: after any sequence of writes whose total fragment length is at most
the capacity, the buffer bytes `[0, written_len)` equal the concatenation of
the fragments, and `as_str` returns exactly that concatenation. -/
theorem writeAll_concat_asStr (buf : List Nat) (frags : List (List Nat))
    (hval : ∀ s ∈ frags, utf8Valid s = true)
    (hfit : (frags.map List.length).sum ≤ buf.length) :
    (writeAll (WriteTo.new buf) frags).buf.take
        (writeAll (WriteTo.new buf) frags).len = frags.flatten ∧
    (writeAll (WriteTo.new buf) frags).asStr = some frags.flatten := by
  have h0 : (WriteTo.new buf).len + (frags.map List.length).sum ≤
      (WriteTo.new buf).buf.length := by simpa [WriteTo.new] using hfit
  obtain ⟨e2, e3⟩ := writeAll_spec frags (WriteTo.new buf) h0
  have hpre : (writeAll (WriteTo.new buf) frags).buf.take
      (writeAll (WriteTo.new buf) frags).len = frags.flatten := by
    simpa [WriteTo.new] using e3
  refine ⟨hpre, ?_⟩
  have hlen : (writeAll (WriteTo.new buf) frags).len ≤
      (writeAll (WriteTo.new buf) frags).buf.length := by
    rw [e2, writeAll_buf_length]
    simpa [WriteTo.new] using hfit
  have hv : utf8Valid ((writeAll (WriteTo.new buf) frags).buf.take
      (writeAll (WriteTo.new buf) frags).len) = true := by
    rw [hpre]
    exact utf8Valid_flatten frags hval
  unfold WriteTo.asStr
  rw [if_pos hlen, if_pos hv, hpre]

/-- Witness for C2 with fragments `["hi"]` into a 3-byte buffer. -/
theorem writeAll_concat_asStr_witness :
    (writeAll (WriteTo.new [0, 0, 0]) [[104, 105]]).asStr =
      some [104, 105] :=
  (writeAll_concat_asStr [0, 0, 0] [[104, 105]] (by decide) (by decide)).2

/-- C3: once `written_len > capacity`, the writer stays overflowed forever:
every subsequent write returns failure and leaves the writer unchanged,
`len`/`is_empty` keep returning `none` after any further write sequence,
and `written_len` never returns to a value at most the capacity. -/
theorem overflow_sticky (w : WriteTo) (h : w.buf.length < w.len)
    (s : List Nat) (frags : List (List Nat)) :
    w.writeStr s = (w, false) ∧
    writeAll w frags = w ∧
    (writeAll w frags).lenq = none ∧
    (writeAll w frags).isEmpty = none ∧
    w.buf.length < (writeAll w frags).len := by
  have hall : writeAll w frags = w := writeAll_of_overflow frags w h
  refine ⟨writeStr_of_overflow w s h, hall, ?_, ?_, ?_⟩
  · rw [hall]
    simp [WriteTo.lenq]
    omega
  · rw [hall]
    simp [WriteTo.isEmpty]
    omega
  · rw [hall]
    exact h

/-- Witness for C3 at the overflowed writer `⟨[0], 2⟩`. -/
theorem overflow_sticky_witness :
    (⟨[0], 2⟩ : WriteTo).writeStr [97] = (⟨[0], 2⟩, false) ∧
    writeAll ⟨[0], 2⟩ [[97], [98]] = ⟨[0], 2⟩ ∧
    (writeAll ⟨[0], 2⟩ [[97], [98]]).lenq = none ∧
    (writeAll ⟨[0], 2⟩ [[97], [98]]).isEmpty = none ∧
    (1 : Nat) < (writeAll ⟨[0], 2⟩ [[97], [98]]).len :=
  overflow_sticky ⟨[0], 2⟩ (by decide) [97] [[97], [98]]

/-- C4 counterexample: at the already-overflowed writer `⟨[0], 2⟩` (capacity
1, `written_len` 2), writing the one-byte fragment `[97]` returns failure and
copies nothing, but does NOT advance `written_len` to `2 + 1`: the code's
early return leaves `written_len` at 2, contradicting the claim that the
write "still advances written_len by the fragment's length". -/
theorem overflow_write_advance_cex :
    ((⟨[0], 2⟩ : WriteTo).writeStr [97]).2 = false ∧
    ((⟨[0], 2⟩ : WriteTo).writeStr [97]).1.buf = [0] ∧
    ((⟨[0], 2⟩ : WriteTo).writeStr [97]).1.len = 2 ∧
    ¬ ((⟨[0], 2⟩ : WriteTo).writeStr [97]).1.len = 2 + 1 := by decide

/-- C4 (amended): for every writer whose `written_len` is already strictly
greater than the capacity, a write returns failure, copies no bytes, and
leaves `written_len` (and the whole writer) unchanged. -/
theorem overflow_write_no_advance (w : WriteTo) (s : List Nat)
    (h : w.buf.length < w.len) : w.writeStr s = (w, false) :=
  writeStr_of_overflow w s h

/-- Witness for the amended C4 at the writer `⟨[0], 2⟩`. -/
theorem overflow_write_no_advance_witness :
    (⟨[0], 2⟩ : WriteTo).writeStr [98] = (⟨[0], 2⟩, false) :=
  overflow_write_no_advance ⟨[0], 2⟩ [98] (by decide)

/-- C5: `show` fails (with the uniform `fmt::Error`) iff the engine run
reports an error — an engine-internal error or a failed write — or
finalization returns no value; it succeeds with `s` iff the engine run
succeeds and finalization returns `s`, in which case `s` is the written
prefix of the buffer. -/
theorem showf_spec (buf : List Nat) (steps : List FmtStep) :
    (∀ s, showf buf steps = Except.ok s ↔
      (fmtWrite (WriteTo.new buf) steps).2 = true ∧
      (fmtWrite (WriteTo.new buf) steps).1.asStr = some s) ∧
    (showf buf steps = Except.error () ↔
      (fmtWrite (WriteTo.new buf) steps).2 = false ∨
      (fmtWrite (WriteTo.new buf) steps).1.asStr = none) ∧
    (∀ s, showf buf steps = Except.ok s →
      s = (fmtWrite (WriteTo.new buf) steps).1.buf.take
        (fmtWrite (WriteTo.new buf) steps).1.len) := by
  have hs : showf buf steps =
      (if (fmtWrite (WriteTo.new buf) steps).2 = true then
        match (fmtWrite (WriteTo.new buf) steps).1.asStr with
        | some s => Except.ok s
        | none => Except.error ()
      else Except.error ()) := rfl
  cases hb : (fmtWrite (WriteTo.new buf) steps).2 with
  | false =>
    rw [hb] at hs
    simp only [Bool.false_eq_true, if_false] at hs
    refine ⟨fun s => ?_, ?_, fun s h => ?_⟩
    · rw [hs]
      simp [hb]
    · rw [hs]
      simp [hb]
    · rw [hs] at h
      exact absurd h (by simp)
  | true =>
    rw [hb] at hs
    simp only [if_true] at hs
    cases ha : (fmtWrite (WriteTo.new buf) steps).1.asStr with
    | none =>
      rw [ha] at hs
      replace hs : showf buf steps = Except.error () := hs
      refine ⟨fun s => ?_, ?_, fun s h => ?_⟩
      · rw [hs]
        constructor
        · intro he
          exact absurd he (by simp)
        · rintro ⟨h1, h2⟩
          exact absurd h2 (by simp)
      · rw [hs]
        simp
      · rw [hs] at h
        exact absurd h (by simp)
    | some v =>
      rw [ha] at hs
      replace hs : showf buf steps = Except.ok v := hs
      refine ⟨fun s => ?_, ?_, fun s h => ?_⟩
      · rw [hs]
        constructor
        · intro he
          obtain rfl : v = s := Except.ok.inj he
          exact ⟨rfl, rfl⟩
        · rintro ⟨h1, h2⟩
          obtain rfl : v = s := Option.some.inj h2
          rfl
      · rw [hs]
        constructor
        · intro he
          exact absurd he (by simp)
        · rintro (h1 | h1)
          · exact absurd h1 (by simp)
          · exact absurd h1 (by simp)
      · rw [hs] at h
        obtain rfl : v = s := Except.ok.inj h
        exact (asStr_eq_some _ v ha).1

/-- Witness for C5: writing `"h"` into a 2-byte buffer succeeds. -/
theorem showf_spec_witness :
    showf [0, 0] [FmtStep.frag [104]] = Except.ok [104] :=
  ((showf_spec [0, 0] [FmtStep.frag [104]]).1 [104]).2 (by decide)

/-- C6: `as_str` returns the buffer prefix `[0, written_len)` as text when
`written_len <= capacity` and that prefix is valid UTF-8; it returns `none`
when validation fails (the validating strategy), and `none` whenever
`written_len > capacity`. -/
theorem asStr_cases (w : WriteTo) :
    (w.len ≤ w.buf.length → utf8Valid (w.buf.take w.len) = true →
      w.asStr = some (w.buf.take w.len)) ∧
    (w.len ≤ w.buf.length → utf8Valid (w.buf.take w.len) = false →
      w.asStr = none) ∧
    (w.buf.length < w.len → w.asStr = none) := by
  refine ⟨fun h1 h2 => ?_, fun h1 h2 => ?_, fun h1 => ?_⟩
  · unfold WriteTo.asStr
    rw [if_pos h1, if_pos h2]
  · unfold WriteTo.asStr
    rw [if_pos h1, if_neg (by simp [h2])]
  · unfold WriteTo.asStr
    rw [if_neg (by omega)]

/-- Witness for C6 at the writer `⟨[104, 0], 1⟩`. -/
theorem asStr_cases_witness :
    (⟨[104, 0], 1⟩ : WriteTo).asStr = some ([104, 0].take 1) :=
  (asStr_cases ⟨[104, 0], 1⟩).1 (by decide) (by decide)

/-- C7: `len` returns `some written_len` exactly when
`written_len <= capacity` and `none` otherwise; `is_empty` returns
`some (written_len == 0)` exactly when `written_len <= capacity` and `none`
otherwise.  (Both take the writer by shared reference in the source; in this
pure model they return only the query result, so they cannot modify the
writer.) -/
theorem lenq_isEmpty_spec (w : WriteTo) :
    (w.len ≤ w.buf.length →
      w.lenq = some w.len ∧ w.isEmpty = some (decide (w.len = 0))) ∧
    (w.buf.length < w.len → w.lenq = none ∧ w.isEmpty = none) := by
  refine ⟨fun h => ?_, fun h => ?_⟩
  · simp [WriteTo.lenq, WriteTo.isEmpty, h]
  · simp [WriteTo.lenq, WriteTo.isEmpty]
    omega

/-- Witness for C7 at the fresh writer over a 1-byte buffer. -/
theorem lenq_isEmpty_spec_witness :
    (⟨[0], 0⟩ : WriteTo).lenq = some 0 ∧
    (⟨[0], 0⟩ : WriteTo).isEmpty = some (decide ((0 : Nat) = 0)) :=
  (lenq_isEmpty_spec ⟨[0], 0⟩).1 (by decide)

/-- C8 counterexample: rendering `"Test String {}: {}"` with `"foo"` and
`42` writes 19 bytes (`"Test String foo: 42"` has length 19, not 20), so
after the writes into the 64-byte buffer `len` returns `some 19`, refuting
the claimed `some 20` (the code's own `test_len` asserts `Some(19)`). -/
theorem scenario_c_len_cex :
    (writeAll (WriteTo.new bufC8) fragsC8).lenq = some 19 ∧
    ¬ (writeAll (WriteTo.new bufC8) fragsC8).lenq = some 20 := by decide

/-- C8 (amended): for a buffer of capacity 64, after a fresh writer receives
the writes produced by rendering `"Test String {}: {}"` with `"foo"` and
`42` (rendered text `"Test String foo: 42"`, 19 bytes), `len` returns
`some 19` and `is_empty` returns `some false`. -/
theorem scenario_c_len19 :
    (writeAll (WriteTo.new bufC8) fragsC8).lenq = some 19 ∧
    (writeAll (WriteTo.new bufC8) fragsC8).isEmpty = some false := by decide

/-- C9: every successful write advances the reported length by exactly the
fragment length (strictly, whenever the fragment is nonempty), the length
queries stay available on both sides of the write, and across any further
write sequence the reported length never decreases. -/
theorem successful_write_len_increase (w : WriteTo) (s : List Nat)
    (h : (w.writeStr s).2 = true) :
    w.lenq = some w.len ∧
    (w.writeStr s).1.lenq = some (w.len + s.length) ∧
    (0 < s.length → w.len < (w.writeStr s).1.len) ∧
    (∀ frags n, (writeAll w frags).lenq = some n → w.len ≤ n) := by
  have hfit : w.len + s.length ≤ w.buf.length := (writeStr_ok_iff w s).1 h
  have h0 : w.len ≤ w.buf.length := by omega
  have hlen : (w.writeStr s).1.len = w.len + s.length :=
    writeStr_len_of_le w s h0
  have hbl : (w.writeStr s).1.buf.length = w.buf.length :=
    writeStr_buf_length w s
  refine ⟨?_, ?_, ?_, ?_⟩
  · simp [WriteTo.lenq, h0]
  · simp [WriteTo.lenq, hlen, hbl]
    omega
  · intro hpos
    rw [hlen]
    omega
  · intro frags n hn
    have hm : w.len ≤ (writeAll w frags).len := writeAll_len_mono frags w
    unfold WriteTo.lenq at hn
    by_cases hle : (writeAll w frags).len ≤ (writeAll w frags).buf.length
    · rw [if_pos hle] at hn
      obtain rfl : (writeAll w frags).len = n := Option.some.inj hn
      exact hm
    · rw [if_neg hle] at hn
      exact absurd hn (Option.noConfusion)

/-- Witness for C9: a successful one-byte write on a fresh 2-byte writer. -/
theorem successful_write_len_increase_witness :
    (⟨[0, 0], 0⟩ : WriteTo).lenq = some 0 ∧
    ((⟨[0, 0], 0⟩ : WriteTo).writeStr [99]).1.lenq = some (0 + 1) ∧
    ((0 : Nat) < 1 → (0 : Nat) < ((⟨[0, 0], 0⟩ : WriteTo).writeStr [99]).1.len) ∧
    (∀ frags n, (writeAll ⟨[0, 0], 0⟩ frags).lenq = some n → 0 ≤ n) :=
  successful_write_len_increase ⟨[0, 0], 0⟩ [99] (by decide)

/-- C10: `write_str` is safe and total in the model: it never changes the
buffer size (no byte outside the buffer is ever written), and when the
guard has established `written_len <= capacity`, the copied region
`[written_len, written_len + num)` with
`num = min(len(fragment), capacity - written_len)` lies entirely inside the
buffer. -/
theorem writeStr_safety (w : WriteTo) (s : List Nat) :
    (w.writeStr s).1.buf.length = w.buf.length ∧
    (w.len ≤ w.buf.length →
      w.len + min s.length (w.buf.length - w.len) ≤ w.buf.length) := by
  refine ⟨writeStr_buf_length w s, fun h => ?_⟩
  omega

/-- Witness for C10 at the writer `⟨[0, 0], 1⟩` and a 3-byte fragment. -/
theorem writeStr_safety_witness :
    ((⟨[0, 0], 1⟩ : WriteTo).writeStr [5, 6, 7]).1.buf.length = 2 ∧
    (1 : Nat) + min 3 (2 - 1) ≤ 2 :=
  ⟨(writeStr_safety ⟨[0, 0], 1⟩ [5, 6, 7]).1,
    (writeStr_safety ⟨[0, 0], 1⟩ [5, 6, 7]).2 (by decide)⟩
